import Mathlib

/-
  Verification of the zipperfly streaming ZIP egress service.

  Shallow embedding of the request pipeline of the zipperfly repository:
  the download handler (internal/handlers/download.go and the newer handler
  variant kept with the handler tests), the signature verifier
  (internal/auth/signature.go), the local filesystem storage provider
  (internal/storage/local.go), the server route wiring
  (internal/server/server.go) with the basic-auth middleware
  (internal/handlers/middleware.go), and spec-modelled components whose
  implementation is provided by configuration plus external libraries
  (the per-IP token-bucket rate limiter and the circuit-breaker state
  machine).

  Strings are modelled as lists of unicode scalar characters.  Go byte
  slicing and Go rune iteration agree on the ASCII fragment that every
  theorem below exercises; the ASCII-only simplification is noted where a
  definition depends on it.
-/

namespace Zipperfly

/-! ## Basic Go string operations -/

/-- ASCII lowering used by the embedding of Go strings.ToLower: letters
A through Z are shifted by 32, every other character is kept.  (The full Go
function also lowers non-ASCII letters; no theorem below depends on those.) -/
def toLowerChar (c : Char) : Char :=
  if 65 ≤ c.toNat ∧ c.toNat ≤ 90 then Char.ofNat (c.toNat + 32) else c

/-- Embedding of Go strings.ToLower over a character list. -/
def lowerStr (s : List Char) : List Char :=
  s.map toLowerChar

/-! ## Filename preparation (handlers, prepareFilename and sanitizeFilename) -/

/-- The characters of the Go forbidden set in sanitizeFilename. -/
def forbiddenChars : List Char :=
  ['\\', '/', ':', '*', '?', '"', '<', '>', '|']

/-- One step of the strings.Map call inside sanitizeFilename: any rune below
32, above 126, or in the forbidden set becomes an underscore. -/
def sanitizeChar (c : Char) : Char :=
  if c.toNat < 32 ∨ 126 < c.toNat ∨ c ∈ forbiddenChars then '_' else c

/-- Whether a character belongs to the cutset of the strings.Trim call in
sanitizeFilename (a space or a dot). -/
def isCutChar (c : Char) : Bool :=
  c == ' ' || c == '.'

/-- Embedding of Go strings.Trim with cutset space-dot: characters of the
cutset are removed from both ends. -/
def trimSpaceDot (s : List Char) : List Char :=
  (((s.dropWhile isCutChar).reverse.dropWhile isCutChar).reverse)

/-- Embedding of sanitizeFilename from the download handler: map every rune
through sanitizeChar, then trim leading and trailing spaces and dots. -/
def sanitizeFilename (s : List Char) : List Char :=
  trimSpaceDot (s.map sanitizeChar)

/-- The four characters of the literal suffix dot-z-i-p. -/
def zipSuffix : List Char :=
  ['.', 'z', 'i', 'p']

/-- Embedding of the suffix stripping step of prepareFilename: when the
lowered name ends in dot-z-i-p, the last four characters are removed. -/
def stripZipSuffix (s : List Char) : List Char :=
  if List.isSuffixOf zipSuffix (lowerStr s) then s.take (s.length - 4) else s

/-- Embedding of prepareFilename from the download handler.  The argument
today stands for the eight digit date produced by time.Now at the moment of
the call; san and ymd are the sanitize-filenames and append-YMD options. -/
def prepareFilename (san ymd : Bool) (today name : List Char) : List Char :=
  let f0 := if name = [] then String.toList "download"
            else if san then sanitizeFilename name else name
  let f1 := stripZipSuffix f0
  let f2 := if ymd then f1 ++ '-' :: today else f1
  f2 ++ zipSuffix

/-! ## Extension filtering (handlers, filterFilesByExtension) -/

/-- Scanner for the embedding of Go filepath.Ext.  It walks the reversed
path, stops at a slash, and returns the suffix starting at the last dot;
acc holds, in original order, the characters already passed. -/
def extScan (acc : List Char) : List Char → List Char
  | [] => []
  | c :: rest =>
      if c = '/' then []
      else if c = '.' then '.' :: acc
      else extScan (c :: acc) rest

/-- Embedding of Go filepath.Ext: the suffix of the final slash-separated
element beginning at its final dot, or empty when there is no dot. -/
def extOf (file : List Char) : List Char :=
  extScan [] file.reverse

/-- The lowered extension the handler compares against the configured
lists: strings.ToLower applied to filepath.Ext of the object key. -/
def extLowerOf (file : List Char) : List Char :=
  lowerStr (extOf file)

/-- Embedding of filterFilesByExtension: with both lists empty the input is
returned unchanged; otherwise a key is dropped when its lowered extension is
in the blocked list, and, when the allowed list is non-empty, also when the
lowered extension is not in the allowed list. -/
def filterFilesByExtension (allowed blocked : List (List Char))
    (files : List (List Char)) : List (List Char) :=
  if allowed = [] ∧ blocked = [] then files
  else files.filter fun f =>
    let ext := extLowerOf f
    !(blocked.contains ext) && (allowed.isEmpty || allowed.contains ext)

/-- An extension entry contains an ASCII uppercase letter. -/
def hasUpperAscii (s : List Char) : Prop :=
  ∃ c ∈ s, 65 ≤ c.toNat ∧ c.toNat ≤ 90

instance (s : List Char) : Decidable (hasUpperAscii s) := by
  unfold hasUpperAscii; infer_instance

/-! ## Signature verification (auth, Verifier.Verify) -/

/-- Numeric value of a non-empty all-digit string, base 10; none otherwise.
Helper for the embedding of strconv.ParseInt. -/
def digitsVal : List Char → Option Nat
  | [] => none
  | [c] => if 48 ≤ c.toNat ∧ c.toNat ≤ 57 then some (c.toNat - 48) else none
  | c :: rest =>
      if 48 ≤ c.toNat ∧ c.toNat ≤ 57 then
        (digitsVal rest).map fun n => (c.toNat - 48) * 10 ^ rest.length + n
      else none

/-- Embedding of Go strconv.ParseInt with base 10 and bit size 64: an
optional sign followed by decimal digits, rejected on overflow of int64. -/
def parseInt64 (s : List Char) : Option Int :=
  match s with
  | [] => none
  | '+' :: rest =>
      (digitsVal rest).bind fun n =>
        if n ≤ 2 ^ 63 - 1 then some (n : Int) else none
  | '-' :: rest =>
      (digitsVal rest).bind fun n =>
        if n ≤ 2 ^ 63 then some (-(n : Int)) else none
  | _ =>
      (digitsVal s).bind fun n =>
        if n ≤ 2 ^ 63 - 1 then some (n : Int) else none

/-- The sixteen lowercase hexadecimal digit characters, in order, as used by
the Go encoding-hex table. -/
def hexAlphabet : List Char :=
  String.toList "0123456789abcdef"

/-- The lowercase hexadecimal digit for a value below sixteen. -/
def hexDigit (n : Nat) : Char :=
  if n < 10 then Char.ofNat (48 + n) else Char.ofNat (97 + (n - 10))

/-- Embedding of hex.EncodeToString for one byte: high nibble digit then
low nibble digit. -/
def hexEncodeByte (b : Nat) : List Char :=
  [hexDigit (b % 256 / 16), hexDigit (b % 16)]

/-- Embedding of Go hex.EncodeToString over a byte sequence. -/
def hexEncode (bs : List Nat) : List Char :=
  bs.flatMap hexEncodeByte

/-- Payload construction of Verifier.Verify: the id alone without an
expiry, otherwise the id, a pipe, and the expiry string. -/
def signaturePayload (id expiryStr : List Char) : List Char :=
  if expiryStr = [] then id else id ++ '|' :: expiryStr

/-- Result classification of Verifier.Verify. -/
inductive VerifyResult where
  | ok
  | invalidExpiry
  | expired
  | sigRequired
  | invalidSignature
  deriving DecidableEq, Repr

/-- Embedding of Verifier.Verify.  The HMAC-SHA256 primitive from the Go
standard library is passed in as the function mac from a secret and a
payload string to the digest bytes; now stands for time.Now in Unix
seconds; enforce is the enforce-signing option. -/
def verify (mac : List Nat → List Char → List Nat) (secret : List Nat)
    (enforce : Bool) (now : Int) (id expiryStr signature : List Char) :
    VerifyResult :=
  let sigCheck :=
    if enforce = true ∨ signature ≠ [] then
      if signature = [] then VerifyResult.sigRequired
      else if signature = hexEncode (mac secret (signaturePayload id expiryStr))
        then VerifyResult.ok
      else VerifyResult.invalidSignature
    else VerifyResult.ok
  if expiryStr ≠ [] then
    match parseInt64 expiryStr with
    | none => VerifyResult.invalidExpiry
    | some e => if now > e then VerifyResult.expired else sigCheck
  else sigCheck

/-! ## Local filesystem path handling (storage, LocalProvider.GetObject) -/

/-- Splitter of a path into slash-separated segments; cur collects, in
reverse, the characters of the segment being read. -/
def splitSlashAux (cur : List Char) : List Char → List (List Char)
  | [] => [cur.reverse]
  | c :: rest =>
      if c = '/' then cur.reverse :: splitSlashAux [] rest
      else splitSlashAux (c :: cur) rest

/-- Split of a path on slashes, keeping empty segments. -/
def splitSlash (s : List Char) : List (List Char) :=
  splitSlashAux [] s

/-- One segment step of the embedding of Go filepath.Clean: empty and dot
segments vanish; a dot-dot segment pops the newest stack entry unless the
stack is empty or already holds dot-dots, in which case a rooted path drops
it and a relative path records it; any other segment is pushed. -/
def cleanStep (rooted : Bool) (stack : List (List Char)) (seg : List Char) :
    List (List Char) :=
  if seg = [] ∨ seg = ['.'] then stack
  else if seg = ['.', '.'] then
    match stack with
    | [] => if rooted then [] else [seg]
    | t :: rest => if t = ['.', '.'] then seg :: stack else rest
  else seg :: stack

/-- Interleaving of segments with slashes, as strings.Join with a slash. -/
def joinSegs : List (List Char) → List Char
  | [] => []
  | [s] => s
  | s :: rest => s ++ '/' :: joinSegs rest

/-- Embedding of Go filepath.Clean on Unix paths: the segment stack is
replayed left to right and reassembled, an empty result becoming a dot for
relative paths and the bare root for rooted ones. -/
def cleanPath (p : List Char) : List Char :=
  if p = [] then ['.']
  else
    let rooted := p.head? = some '/'
    let stack := ((splitSlash p).foldl (cleanStep rooted) []).reverse
    if rooted then '/' :: joinSegs stack
    else if stack = [] then ['.'] else joinSegs stack

/-- The full path LocalProvider.GetObject builds: filepath.Join of the base
path, the optional bucket, and the key (Join cleans its result), followed by
the explicit second filepath.Clean of the code. -/
def localFullPath (base bucket key : List Char) : List Char :=
  let joined :=
    if bucket = [] then base ++ '/' :: key
    else base ++ '/' :: bucket ++ '/' :: key
  cleanPath (cleanPath joined)

/-- The security check of LocalProvider.GetObject: strings.HasPrefix of the
cleaned full path against the base path.  When it returns true the provider
proceeds to os.Open on the full path; when false it returns the
path-traversal error without opening anything. -/
def traversalCheckPasses (base bucket key : List Char) : Bool :=
  List.isPrefixOf base (localFullPath base bucket key)

/-- Modelled from the spec: a canonicalized absolute path lies under the
configured base directory when it equals the base or extends it past a path
separator.  This is the property the spec requires of every admitted path;
it is the yardstick the code check is compared against. -/
def liesUnderBase (base p : List Char) : Bool :=
  p == base || List.isPrefixOf (base ++ ['/']) p

/-! ## Manifest lookup stage (handlers, Download) -/

/-- The failure kinds a manifest store can report, per the spec taxonomy:
the record is absent, or the backend failed (timeout, connection loss). -/
inductive LookupErr where
  | notFound
  | backendError
  deriving DecidableEq, Repr

/-- A loaded download manifest, reduced to the fields the handler reads. -/
structure DownloadRecord where
  name : List Char
  bucket : List Char
  objects : List (List Char)
  deriving DecidableEq, Repr

/-- Embedding of the lookup stage of Handler.Download: any error from
GetRecord is answered with status 404, a record continues the pipeline. -/
def lookupStage (res : Except LookupErr DownloadRecord) :
    Except Nat DownloadRecord :=
  match res with
  | Except.error _ => Except.error 404
  | Except.ok r => Except.ok r

/-! ## Archive assembly outcome (handlers, streamFilesFromStorage) -/

/-- Error kinds with which a storage fetch can terminally fail, per the
spec taxonomy.  The handler never inspects the kind: it branches only on
whether an error is present. -/
inductive StorageErrKind where
  | notFound
  | transientExhausted
  | permanentError
  | circuitOpen
  deriving DecidableEq, Repr

/-- Terminal outcome of one GetObject call as seen by the fetch goroutine. -/
inductive FetchOutcome where
  | fetched
  | fetchFailed (e : StorageErrKind)
  deriving DecidableEq, Repr

/-- Per-object result reported on the result channel: an entry was written,
the object was skipped as missing (error dropped), or it failed carrying an
error that is a candidate for the first fatal error. -/
inductive ObjResult where
  | success
  | skippedMissing
  | failed (e : StorageErrKind)
  deriving DecidableEq, Repr

/-- Embedding of the error branch of the fetch goroutine in
streamFilesFromStorage: on a failed GetObject, when ignore-missing is on the
object is logged, counted missing, and reported with a nil error; otherwise
the error itself is reported. -/
def processFetch (ignoreMissing : Bool) : FetchOutcome → ObjResult
  | FetchOutcome.fetched => ObjResult.success
  | FetchOutcome.fetchFailed e =>
      if ignoreMissing then ObjResult.skippedMissing else ObjResult.failed e

/-- Count of successful per-object results, as accumulated by the result
collection loop. -/
def successCount (rs : List ObjResult) : Nat :=
  rs.countP fun r => match r with
    | ObjResult.success => true
    | _ => false

/-- First error carried by a per-object result in arrival order, as stored
by the result collection loop into fetchErr. -/
def firstFatal : List ObjResult → Option StorageErrKind
  | [] => none
  | ObjResult.failed e :: _ => some e
  | _ :: rest => firstFatal rest

/-- The error value streamFilesFromStorage can return: the all-files-missing
error carrying the object count, or the first fatal fetch error. -/
inductive StreamErr where
  | allFilesMissing (n : Nat)
  | fetchFatal (e : StorageErrKind)
  deriving DecidableEq, Repr

/-- Embedding of the return logic of streamFilesFromStorage after all tasks
drained, over the per-object results in arrival order: with ignore-missing
on, zero successes, and a non-empty object list, the all-files-missing error
is returned with count zero; with ignore-missing off a recorded error is
returned; otherwise the success count alone. -/
def streamOutcome (ignoreMissing : Bool) (rs : List ObjResult) :
    Nat × Option StreamErr :=
  let s := successCount rs
  let fe := firstFatal rs
  if ignoreMissing = true ∧ s = 0 ∧ 0 < rs.length then
    (0, some (StreamErr.allFilesMissing rs.length))
  else if ignoreMissing = false ∧ fe.isSome then
    (s, fe.map StreamErr.fetchFatal)
  else (s, none)

/-- The user-visible outcome classification of one download attempt. -/
inductive DownloadStatus where
  | completed
  | partialResult
  | failed
  deriving DecidableEq, Repr

/-- Embedding of the status determination in Handler.Download: failed when
streamFilesFromStorage returned an error, partial when fewer successes than
objects, completed otherwise. -/
def downloadStatusOf (total : Nat) (res : Nat × Option StreamErr) :
    DownloadStatus :=
  if res.2.isSome then DownloadStatus.failed
  else if res.1 < total then DownloadStatus.partialResult
  else DownloadStatus.completed

/-- The composed outcome of one attempt, as the code computes it: the
stream result is built first, then classified against the number of
objects (one result arrives per object, so the total is the result count). -/
def classifyAttempt (ignoreMissing : Bool) (rs : List ObjResult) :
    DownloadStatus × Option StreamErr :=
  let r := streamOutcome ignoreMissing rs
  (downloadStatusOf rs.length r, r.2)

/-- The outcome classification exactly as the spec words it, case by case
in the stated order; written from the spec text for comparison with
classifyAttempt. -/
def classifySpec (ignoreMissing : Bool) (rs : List ObjResult) :
    DownloadStatus × Option StreamErr :=
  let s := successCount rs
  let fe := firstFatal rs
  let n := rs.length
  if ignoreMissing = true ∧ s = 0 ∧ 0 < n then
    (DownloadStatus.failed, some (StreamErr.allFilesMissing n))
  else if ignoreMissing = false ∧ fe.isSome then
    (DownloadStatus.failed, fe.map StreamErr.fetchFatal)
  else if s < n then (DownloadStatus.partialResult, none)
  else (DownloadStatus.completed, none)

/-! ## Metrics route gating (server.New and handlers.BasicAuth) -/

/-- What the metrics endpoint answers a request. -/
inductive MetricsAnswer where
  | served
  | unauthorized
  deriving DecidableEq, Repr

/-- Embedding of the check inside the BasicAuth middleware: the request
must carry credentials that equal the configured pair. -/
def basicAuthAllows (user pass : List Char)
    (creds : Option (List Char × List Char)) : Bool :=
  match creds with
  | some (u, p) => u == user && p == pass
  | none => false

/-- Embedding of the metrics route wiring in server.New combined with the
middleware: the auth wrapper is installed only when both the metrics
username and password are non-empty; otherwise the handler is mounted
bare and every request is served. -/
def serveMetrics (cfgUser cfgPass : List Char)
    (creds : Option (List Char × List Char)) : MetricsAnswer :=
  if cfgUser ≠ [] ∧ cfgPass ≠ [] then
    if basicAuthAllows cfgUser cfgPass creds then MetricsAnswer.served
    else MetricsAnswer.unauthorized
  else MetricsAnswer.served

/-! ## Per-IP rate limiting (admission controller) -/

/-- Modelled from the spec: the per-IP token bucket state.  The rate-limit
middleware itself is not among the source files (only its configuration key
RATE_LIMIT_PER_IP and the documented token-bucket-with-burst-one behaviour
are); the bucket follows the spec description with real-valued time and
token counts represented as rationals. -/
structure TokenBucket where
  tokens : ℚ
  lastRefill : ℚ
  deriving DecidableEq, Repr

/-- Modelled from the spec: a bucket created on first use holds a full
burst, and the burst size is one. -/
def freshBucket (now : ℚ) : TokenBucket :=
  TokenBucket.mk 1 now

/-- Modelled from the spec: tokens refill continuously at the configured
rate and are capped at the burst of one. -/
def refillTokens (rate : ℚ) (b : TokenBucket) (now : ℚ) : ℚ :=
  min 1 (b.tokens + (now - b.lastRefill) * rate)

/-- Admission decision of the rate limiter for one request. -/
inductive AdmitAnswer where
  | admitted
  | rejected429
  deriving DecidableEq, Repr

/-- Modelled from the spec: a request takes a token without blocking when a
whole token is available after refill, and is otherwise rejected with 429. -/
def rateLimitDecision (rate : ℚ) (b : TokenBucket) (now : ℚ) :
    AdmitAnswer × TokenBucket :=
  let t := refillTokens rate b now
  if 1 ≤ t then (AdmitAnswer.admitted, TokenBucket.mk (t - 1) now)
  else (AdmitAnswer.rejected429, TokenBucket.mk t now)

/-! ## Circuit breaker (spec state machine) -/

/-- The three breaker states of the spec. -/
inductive CBState where
  | closed
  | opened
  | halfOpen
  deriving DecidableEq, Repr

/-- Breaker tuning: trip threshold, the open-state timeout, and the number
of concurrent probes admitted half-open. -/
structure CBConfig where
  threshold : Nat
  timeout : ℚ
  maxProbes : Nat
  deriving DecidableEq, Repr

/-- Modelled from the spec: the breaker record with its consecutive failure
counter and the instant it last opened.  The state machine itself lives in
the vendored gobreaker dependency, not among the source files; the wrapper
in the circuitbreaker package only forwards to it, so the machine is taken
from the spec description. -/
structure CBreaker where
  state : CBState
  consecutiveFailures : Nat
  openedAt : ℚ
  deriving DecidableEq, Repr

/-- The breaker of a fresh process: closed with no recorded failures. -/
def initialCB : CBreaker :=
  CBreaker.mk CBState.closed 0 0

/-- Outcome of one call through the breaker: the inner function ran and
returned ok or not, or the call failed fast with the circuit-open error. -/
inductive CallResult where
  | ran (ok : Bool)
  | circuitOpenErr
  deriving DecidableEq, Repr

/-- One call through the breaker: its result, whether the inner function
was invoked, and the successor breaker state. -/
structure CallStep where
  result : CallResult
  invoked : Bool
  next : CBreaker
  deriving DecidableEq, Repr

/-- Modelled from the spec: the closed-state bookkeeping.  A failure
increments the consecutive failure count and trips the breaker open,
stamping the opening time, once the count reaches the threshold. -/
def cbFailClosed (cfg : CBConfig) (cb : CBreaker) (now : ℚ) : CBreaker :=
  let f := cb.consecutiveFailures + 1
  if cfg.threshold ≤ f then CBreaker.mk CBState.opened f now
  else CBreaker.mk CBState.closed f cb.openedAt

/-- Modelled from the spec: a probe admitted half-open closes the breaker
on success and reopens it, restamping the opening time, on failure. -/
def cbProbe (cb : CBreaker) (now : ℚ) (innerOk : Bool) : CallStep :=
  if innerOk then
    CallStep.mk (CallResult.ran true) true (CBreaker.mk CBState.closed 0 cb.openedAt)
  else
    CallStep.mk (CallResult.ran false) true
      (CBreaker.mk CBState.opened cb.consecutiveFailures now)

/-- Modelled from the spec: one sequential call through the breaker state
machine.  Closed calls pass through with success resetting and failure
counting; open calls fail fast with the circuit-open error, without
invoking the inner function, until the timeout has elapsed, at which point
the state becomes half-open and the call proceeds as a probe; half-open
calls are probes when the probe budget admits one, else they fail fast. -/
def cbCall (cfg : CBConfig) (cb : CBreaker) (now : ℚ) (innerOk : Bool) :
    CallStep :=
  match cb.state with
  | CBState.closed =>
      if innerOk then
        CallStep.mk (CallResult.ran true) true
          (CBreaker.mk CBState.closed 0 cb.openedAt)
      else
        CallStep.mk (CallResult.ran false) true (cbFailClosed cfg cb now)
  | CBState.opened =>
      if now - cb.openedAt < cfg.timeout then
        CallStep.mk CallResult.circuitOpenErr false cb
      else if 1 ≤ cfg.maxProbes then cbProbe cb now innerOk
      else
        CallStep.mk CallResult.circuitOpenErr false
          (CBreaker.mk CBState.halfOpen cb.consecutiveFailures cb.openedAt)
  | CBState.halfOpen =>
      if 1 ≤ cfg.maxProbes then cbProbe cb now innerOk
      else CallStep.mk CallResult.circuitOpenErr false cb

/-- Iterated failing calls through the breaker at a fixed instant. -/
def applyFails (cfg : CBConfig) (now : ℚ) : Nat → CBreaker → CBreaker
  | 0, cb => cb
  | n + 1, cb => applyFails cfg now n (cbCall cfg cb now false).next

/-- A character the sanitize map keeps unchanged: printable ASCII outside
the forbidden set.  Helper predicate for the idempotence proofs. -/
def safeChar (c : Char) : Prop :=
  32 ≤ c.toNat ∧ c.toNat ≤ 126 ∧ c ∉ forbiddenChars

instance (c : Char) : Decidable (safeChar c) := by
  unfold safeChar; infer_instance

/-! ## Theorems -/

/-- C1.  The path-traversal guard of LocalProvider.GetObject is a bare
strings.HasPrefix test, so a key whose cleaned absolute path lands in a
sibling directory that merely extends the base path as a string slips
through: with base slash-var-slash-files and key dot-dot-slash-files-evil-
slash-x, the cleaned full path escapes the base directory, yet the check
passes and the provider proceeds to os.Open; a genuine ancestor escape is
rejected.  This contradicts the claim that every escaping path is answered
with the traversal error before any file is opened. -/
theorem c1_sibling_directory_escapes_check :
    localFullPath (String.toList "/var/files") []
        (String.toList "../files-evil/x") = String.toList "/var/files-evil/x" ∧
    traversalCheckPasses (String.toList "/var/files") []
        (String.toList "../files-evil/x") = true ∧
    liesUnderBase (String.toList "/var/files")
        (localFullPath (String.toList "/var/files") []
          (String.toList "../files-evil/x")) = false ∧
    traversalCheckPasses (String.toList "/var/files") []
        (String.toList "../../etc/passwd") = false := by
  refine ⟨by decide, by decide, by decide, by decide⟩

/-- C2 counterexample.  With ignore-missing on, a fetch that fails with a
PermanentError is treated exactly like a missing file: the goroutine
reports it with a nil error, so over the two-object attempt in which the
first object is fetched and the second ends in a PermanentError, no
first-fatal-error candidate is recorded and the stream returns no error,
contradicting the claim that non-NotFound failures are fatal regardless of
ignore-missing. -/
theorem c2_permanent_error_skipped_counterexample :
    processFetch true (FetchOutcome.fetchFailed StorageErrKind.permanentError)
        = ObjResult.skippedMissing ∧
    firstFatal ((List.map (processFetch true)
        [FetchOutcome.fetched,
          FetchOutcome.fetchFailed StorageErrKind.permanentError])) = none ∧
    (streamOutcome true (List.map (processFetch true)
        [FetchOutcome.fetched,
          FetchOutcome.fetchFailed StorageErrKind.permanentError])).2 = none := by
  refine ⟨by decide, by decide, by decide⟩

/-- C2 amended.  The handler never inspects the kind of a fetch error:
with ignore-missing on, every failed fetch, of any kind, is skipped and
counted as missing with no fatal-error candidate, and with ignore-missing
off every failed fetch, of any kind, carries its error as a candidate for
the first fatal error. -/
theorem c2_every_error_skipped_amended (e : StorageErrKind) :
    processFetch true (FetchOutcome.fetchFailed e) = ObjResult.skippedMissing ∧
    processFetch false (FetchOutcome.fetchFailed e) = ObjResult.failed e := by
  exact ⟨rfl, rfl⟩

/-- C3 counterexample.  A manifest lookup that fails with a backend error
is answered with status 404, which is not in the 500 class, contradicting
the claim that backend errors are mapped to a 500-class status distinct
from the 404 used for a missing manifest. -/
theorem c3_backend_error_gets_404_counterexample :
    lookupStage (Except.error LookupErr.backendError) = Except.error 404 ∧
    404 < 500 := by
  exact ⟨rfl, by omega⟩

/-- C3 amended.  Handler.Download maps every manifest lookup failure,
NotFound and BackendError alike, to the single status 404; the two failure
kinds are not distinguished in the user-visible status. -/
theorem c3_all_lookup_errors_404_amended (e : LookupErr)
    (r : DownloadRecord) :
    lookupStage (Except.error e) = Except.error 404 ∧
    lookupStage (Except.ok r) = Except.ok r := by
  exact ⟨by cases e <;> rfl, rfl⟩

/-- C5.  After all fetch tasks have drained, the composed outcome of the
code (the return logic of streamFilesFromStorage followed by the status
determination in Handler.Download) equals, for every ignore-missing setting
and every arrival-ordered result list, the four-case classification in the
order the spec states it: all-files-missing failure, first-fatal-error
failure, partial, completed. -/
theorem c5_outcome_classification (im : Bool) (rs : List ObjResult) :
    classifyAttempt im rs = classifySpec im rs := by
  unfold classifyAttempt classifySpec streamOutcome downloadStatusOf
  by_cases h1 : im = true ∧ successCount rs = 0 ∧ 0 < rs.length
  · simp [h1]
  · by_cases h2 : im = false ∧ (firstFatal rs).isSome
    · simp [h1, h2]
    · simp only [if_neg h1, if_neg h2]
      by_cases h3 : successCount rs < rs.length
      · simp [h3]
      · simp [h3]

/-- C9.  Basic auth on the metrics endpoint is installed only when both the
metrics username and password are configured non-empty: with either one
empty every request is served without an auth check, and with both
non-empty a request without credentials is rejected as unauthorized. -/
theorem c9_metrics_auth_requires_both (u p : List Char)
    (creds : Option (List Char × List Char)) :
    ((u = [] ∨ p = []) → serveMetrics u p creds = MetricsAnswer.served) ∧
    (u ≠ [] → p ≠ [] → serveMetrics u p none = MetricsAnswer.unauthorized) := by
  constructor
  · intro h
    unfold serveMetrics
    rw [if_neg]
    rintro ⟨hu, hp⟩
    rcases h with h | h
    · exact hu h
    · exact hp h
  · intro hu hp
    unfold serveMetrics
    rw [if_pos ⟨hu, hp⟩]
    rfl

/-- C9 witness: with an empty username the metrics endpoint is open, and
with both credentials configured a bare request is rejected. -/
theorem c9_metrics_auth_witness :
    serveMetrics [] (String.toList "pw") none = MetricsAnswer.served ∧
    serveMetrics (String.toList "user") (String.toList "pw") none
      = MetricsAnswer.unauthorized := by
  exact ⟨(c9_metrics_auth_requires_both [] (String.toList "pw") none).1
      (Or.inl rfl),
    (c9_metrics_auth_requires_both (String.toList "user") (String.toList "pw")
      none).2 (by decide) (by decide)⟩

/-- Helper: the rejection branch of the rate limiter is taken exactly when
less than one whole token is available after refill. -/
theorem rateLimitDecision_rejected_iff (rate : ℚ) (b : TokenBucket) (now : ℚ) :
    (rateLimitDecision rate b now).1 = AdmitAnswer.rejected429 ↔
      refillTokens rate b now < 1 := by
  unfold rateLimitDecision
  by_cases h : 1 ≤ refillTokens rate b now
  · rw [if_pos h]
    constructor
    · intro hc; cases hc
    · intro hc; exact absurd h (not_le.mpr hc)
  · rw [if_neg h]
    constructor
    · intro _; exact not_le.mp h
    · intro _; rfl

/-- C4.  A request is rejected with 429 exactly when a whole token cannot
be taken from the token bucket without blocking; in particular, with any
positive rate, the first request of an IP at time t1 is admitted from the
freshly created bucket (burst one) and a second request within one-over-rate
seconds is rejected with 429. -/
theorem c4_rate_limit_rejects_within_window (rate t1 t2 : ℚ) (hr : 0 < rate)
    (_h12 : t1 ≤ t2) (hlt : t2 - t1 < 1 / rate) :
    (∀ (b : TokenBucket) (now : ℚ),
      (rateLimitDecision rate b now).1 = AdmitAnswer.rejected429 ↔
        refillTokens rate b now < 1) ∧
    (rateLimitDecision rate (freshBucket t1) t1).1 = AdmitAnswer.admitted ∧
    (rateLimitDecision rate (rateLimitDecision rate (freshBucket t1) t1).2 t2).1
      = AdmitAnswer.rejected429 := by
  have hfresh : refillTokens rate (freshBucket t1) t1 = 1 := by
    unfold refillTokens freshBucket
    simp
  have hb2 : (rateLimitDecision rate (freshBucket t1) t1).2
      = TokenBucket.mk 0 t1 := by
    unfold rateLimitDecision
    rw [if_pos (le_of_eq hfresh.symm)]
    simp [hfresh]
  have hx : (t2 - t1) * rate < 1 := by
    have h1 : (t2 - t1) * rate < (1 / rate) * rate :=
      mul_lt_mul_of_pos_right hlt hr
    have h2 : (1 / rate) * rate = 1 := by
      field_simp
    rw [h2] at h1
    exact h1
  refine ⟨fun b now => rateLimitDecision_rejected_iff rate b now, ?_, ?_⟩
  · unfold rateLimitDecision
    rw [if_pos (le_of_eq hfresh.symm)]
  · rw [rateLimitDecision_rejected_iff, hb2]
    unfold refillTokens
    simp only [zero_add]
    calc min 1 ((t2 - t1) * rate) ≤ (t2 - t1) * rate := min_le_right _ _
      _ < 1 := hx

/-- C4 witness: with rate one, a first request at time zero is admitted
and a second a half second later is rejected with 429. -/
theorem c4_rate_limit_witness :
    (0 : ℚ) < 1 ∧
    (rateLimitDecision 1 (freshBucket 0) 0).1 = AdmitAnswer.admitted ∧
    (rateLimitDecision 1 (rateLimitDecision 1 (freshBucket 0) 0).2
        ((1 : ℚ) / 2)).1 = AdmitAnswer.rejected429 :=
  ⟨by norm_num,
    (c4_rate_limit_rejects_within_window 1 0 (1 / 2) (by norm_num) (by norm_num)
      (by norm_num)).2.1,
    (c4_rate_limit_rejects_within_window 1 0 (1 / 2) (by norm_num) (by norm_num)
      (by norm_num)).2.2⟩

/-- Helper: iterating failing breaker calls that never reach the threshold
keeps the breaker closed and accumulates the failure count. -/
theorem applyFails_stay_closed (cfg : CBConfig) (t0 x : ℚ) :
    ∀ (k c : Nat), c + k < cfg.threshold →
      applyFails cfg t0 k (CBreaker.mk CBState.closed c x)
        = CBreaker.mk CBState.closed (c + k) x := by
  intro k
  induction k with
  | zero => intro c _; rfl
  | succ n ih =>
      intro c h
      show applyFails cfg t0 n
          (cbCall cfg (CBreaker.mk CBState.closed c x) t0 false).next
        = _
      have hstep : (cbCall cfg (CBreaker.mk CBState.closed c x) t0 false).next
          = CBreaker.mk CBState.closed (c + 1) x := by
        have hlt : ¬ cfg.threshold ≤ c + 1 := by omega
        show cbFailClosed cfg (CBreaker.mk CBState.closed c x) t0 = _
        unfold cbFailClosed
        rw [if_neg hlt]
      rw [hstep, ih (c + 1) (by omega)]
      congr 1
      omega

/-- Helper: exactly enough failing calls to reach the threshold trip the
breaker open, stamping the time of the final failure. -/
theorem applyFails_trips (cfg : CBConfig) (t0 x : ℚ) :
    ∀ (k c : Nat), 0 < k → c + k = cfg.threshold →
      applyFails cfg t0 k (CBreaker.mk CBState.closed c x)
        = CBreaker.mk CBState.opened cfg.threshold t0 := by
  intro k
  induction k with
  | zero => intro c h; omega
  | succ n ih =>
      intro c _ h
      show applyFails cfg t0 n
          (cbCall cfg (CBreaker.mk CBState.closed c x) t0 false).next
        = _
      by_cases hn : n = 0
      · subst hn
        have hstep :
            (cbCall cfg (CBreaker.mk CBState.closed c x) t0 false).next
              = CBreaker.mk CBState.opened cfg.threshold t0 := by
          have hle : cfg.threshold ≤ c + 1 := by omega
          show cbFailClosed cfg (CBreaker.mk CBState.closed c x) t0 = _
          unfold cbFailClosed
          rw [if_pos hle]
          congr 1
        rw [hstep]
        rfl
      · have hstep :
            (cbCall cfg (CBreaker.mk CBState.closed c x) t0 false).next
              = CBreaker.mk CBState.closed (c + 1) x := by
          have hlt : ¬ cfg.threshold ≤ c + 1 := by omega
          show cbFailClosed cfg (CBreaker.mk CBState.closed c x) t0 = _
          unfold cbFailClosed
          rw [if_neg hlt]
        rw [hstep, ih (c + 1) (by omega) (by omega)]

/-- C7.  Once threshold consecutive failures are observed in the closed
state the breaker is open with the failure time stamped; the very next call
before the timeout fails fast with the circuit-open error without invoking
the inner function; a call after the timeout is admitted as a probe and on
success returns the breaker to closed, so the following call passes through
and runs the inner function. -/
theorem c7_breaker_trip_probe_recover (cfg : CBConfig) (t0 t1 t2 t3 : ℚ)
    (hth : 0 < cfg.threshold) (hp : 1 ≤ cfg.maxProbes)
    (h1 : t1 - t0 < cfg.timeout) (h2 : cfg.timeout ≤ t2 - t0) :
    (applyFails cfg t0 cfg.threshold initialCB).state = CBState.opened ∧
    (applyFails cfg t0 cfg.threshold initialCB).openedAt = t0 ∧
    (cbCall cfg (applyFails cfg t0 cfg.threshold initialCB) t1 true).result
      = CallResult.circuitOpenErr ∧
    (cbCall cfg (applyFails cfg t0 cfg.threshold initialCB) t1 true).invoked
      = false ∧
    (cbCall cfg (applyFails cfg t0 cfg.threshold initialCB) t2 true).invoked
      = true ∧
    (cbCall cfg (applyFails cfg t0 cfg.threshold initialCB) t2 true).result
      = CallResult.ran true ∧
    (cbCall cfg (applyFails cfg t0 cfg.threshold initialCB) t2 true).next.state
      = CBState.closed ∧
    (cbCall cfg
        (cbCall cfg (applyFails cfg t0 cfg.threshold initialCB) t2 true).next
        t3 true).result = CallResult.ran true ∧
    (cbCall cfg
        (cbCall cfg (applyFails cfg t0 cfg.threshold initialCB) t2 true).next
        t3 true).invoked = true := by
  have hrun : applyFails cfg t0 cfg.threshold initialCB
      = CBreaker.mk CBState.opened cfg.threshold t0 :=
    applyFails_trips cfg t0 0 cfg.threshold 0 hth (by omega)
  have hfast : cbCall cfg (CBreaker.mk CBState.opened cfg.threshold t0) t1 true
      = CallStep.mk CallResult.circuitOpenErr false
          (CBreaker.mk CBState.opened cfg.threshold t0) := by
    unfold cbCall
    simp only
    rw [if_pos h1]
  have hprobe : cbCall cfg (CBreaker.mk CBState.opened cfg.threshold t0) t2 true
      = CallStep.mk (CallResult.ran true) true (CBreaker.mk CBState.closed 0 t0) := by
    unfold cbCall cbProbe
    simp only
    rw [if_neg (not_lt.mpr h2), if_pos hp]
    simp
  have hpass : cbCall cfg (CBreaker.mk CBState.closed 0 t0) t3 true
      = CallStep.mk (CallResult.ran true) true (CBreaker.mk CBState.closed 0 t0) := by
    unfold cbCall
    simp
  rw [hrun]
  rw [hfast, hprobe, hpass]
  exact ⟨rfl, rfl, rfl, rfl, rfl, rfl, rfl, rfl, rfl⟩

/-- C7 witness: a breaker with threshold two, timeout five and one probe,
failed twice at time zero, fails fast at time one without invoking the
inner function, admits a successful probe at time five, and passes the
following call through at time six. -/
theorem c7_breaker_witness :
    (cbCall (CBConfig.mk 2 5 1)
        (applyFails (CBConfig.mk 2 5 1) 0 2 initialCB) 1 true).invoked
      = false ∧
    (cbCall (CBConfig.mk 2 5 1)
        (cbCall (CBConfig.mk 2 5 1)
          (applyFails (CBConfig.mk 2 5 1) 0 2 initialCB) 5 true).next
        6 true).result = CallResult.ran true :=
  ⟨(c7_breaker_trip_probe_recover (CBConfig.mk 2 5 1) 0 1 5 6 (by norm_num)
      (by norm_num) (by norm_num) (by norm_num)).2.2.2.1,
    (c7_breaker_trip_probe_recover (CBConfig.mk 2 5 1) 0 1 5 6 (by norm_num)
      (by norm_num) (by norm_num) (by norm_num)).2.2.2.2.2.2.2.1⟩

/-- Helper: every hexadecimal digit below sixteen is drawn from the
lowercase alphabet table. -/
theorem hexDigit_mem_alphabet (n : Nat) (h : n < 16) :
    hexDigit n ∈ hexAlphabet := by
  interval_cases n <;> decide

/-- Helper: every character emitted by the hex encoder belongs to the
lowercase hexadecimal alphabet. -/
theorem hexEncode_subset_alphabet (bs : List Nat) :
    ∀ c ∈ hexEncode bs, c ∈ hexAlphabet := by
  intro c hc
  unfold hexEncode at hc
  rw [List.mem_flatMap] at hc
  obtain ⟨b, _, hb⟩ := hc
  unfold hexEncodeByte at hb
  have hb2 : c = hexDigit (b % 256 / 16) ∨ c = hexDigit (b % 16) := by
    simpa using hb
  rcases hb2 with h | h <;> subst h <;> exact hexDigit_mem_alphabet _ (by omega)

/-- Helper: the hex encoding of a byte list has twice its length. -/
theorem hexEncode_length (bs : List Nat) :
    (hexEncode bs).length = 2 * bs.length := by
  induction bs with
  | nil => rfl
  | cons b rest ih =>
      unfold hexEncode at ih ⊢
      simp [hexEncodeByte, ih]
      omega

/-- C6.  Whenever signing is enforced or a signature is supplied, and the
expiry gate passes (no expiry, or a parsed expiry not in the past), Verify
accepts a signature exactly when it equals the hex encoding of the digest
of the payload, where the payload is the id alone without an expiry and the
id, a pipe, and the expiry string otherwise; every character of that
expected signature is a lowercase hexadecimal digit, and any differing
signature, a single-bit perturbation included, is rejected.  The digest
primitive mac stands for HMAC-SHA256, whose output is 32 bytes. -/
theorem c6_verify_accepts_exactly_hmac_hex
    (mac : List Nat → List Char → List Nat) (secret : List Nat)
    (enforce : Bool) (now : Int) (id expiryStr sig : List Char)
    (hgate : enforce = true ∨ sig ≠ [])
    (hlen : (mac secret (signaturePayload id expiryStr)).length = 32)
    (hexp : expiryStr = [] ∨ ∃ e, parseInt64 expiryStr = some e ∧ now ≤ e) :
    (verify mac secret enforce now id expiryStr sig = VerifyResult.ok ↔
      sig = hexEncode (mac secret (signaturePayload id expiryStr))) ∧
    ∀ c ∈ hexEncode (mac secret (signaturePayload id expiryStr)),
      c ∈ hexAlphabet := by
  refine ⟨?_, hexEncode_subset_alphabet _⟩
  have hne : hexEncode (mac secret (signaturePayload id expiryStr)) ≠ [] := by
    intro h0
    have hl := hexEncode_length (mac secret (signaturePayload id expiryStr))
    rw [h0, hlen] at hl
    simp at hl
  have hsig :
      verify mac secret enforce now id expiryStr sig =
        (if enforce = true ∨ sig ≠ [] then
          if sig = [] then VerifyResult.sigRequired
          else if sig = hexEncode (mac secret (signaturePayload id expiryStr))
            then VerifyResult.ok
          else VerifyResult.invalidSignature
        else VerifyResult.ok) := by
    unfold verify
    rcases hexp with hE | ⟨e, hpe, hle⟩
    · subst hE
      rw [if_neg (by simp)]
    · by_cases hE : expiryStr = []
      · subst hE
        simp [parseInt64] at hpe
      · rw [if_pos hE, hpe]
        dsimp only
        rw [if_neg (not_lt.mpr hle)]
  rw [hsig, if_pos hgate]
  by_cases hs0 : sig = []
  · subst hs0
    rw [if_pos rfl]
    constructor
    · intro hc; cases hc
    · intro hc; exact absurd hc.symm hne
  · rw [if_neg hs0]
    by_cases heq : sig = hexEncode (mac secret (signaturePayload id expiryStr))
    · rw [if_pos heq]
      exact ⟨fun _ => heq, fun _ => rfl⟩
    · rw [if_neg heq]
      constructor
      · intro hc; cases hc
      · intro hc; exact absurd hc heq

/-- C6 witness: with a digest primitive returning 32 zero bytes, signing
enforced and no expiry, Verify accepts the hex encoding of the digest. -/
theorem c6_verify_witness :
    (List.replicate 32 0).length = 32 ∧
    (verify (fun _ _ => List.replicate 32 0) [] true 0 (String.toList "t1") []
        (hexEncode (List.replicate 32 0)) = VerifyResult.ok ↔
      hexEncode (List.replicate 32 0) = hexEncode (List.replicate 32 0)) :=
  ⟨by decide,
    (c6_verify_accepts_exactly_hmac_hex (fun _ _ => List.replicate 32 0) []
      true 0 (String.toList "t1") [] (hexEncode (List.replicate 32 0))
      (Or.inl rfl) (by decide) (Or.inl rfl)).1⟩

/-- Helper: converting a valid code point back to a number is the
identity. -/
theorem charOfNat_toNat (n : Nat) (h : n.isValidChar) :
    (Char.ofNat n).toNat = n := by
  rw [Char.ofNat, dif_pos h]
  rfl

/-- Helper: the ASCII lowering never produces an ASCII uppercase letter. -/
theorem toLowerChar_not_upper (c : Char) :
    ¬(65 ≤ (toLowerChar c).toNat ∧ (toLowerChar c).toNat ≤ 90) := by
  unfold toLowerChar
  by_cases h : 65 ≤ c.toNat ∧ c.toNat ≤ 90
  · rw [if_pos h]
    have hv : (c.toNat + 32).isValidChar := Or.inl (by omega)
    rw [charOfNat_toNat _ hv]
    omega
  · rw [if_neg h]
    exact h

/-- Helper: every character of a lowered string is the lowering of some
character. -/
theorem mem_lowerStr (c : Char) (s : List Char) (h : c ∈ lowerStr s) :
    ∃ a, c = toLowerChar a := by
  unfold lowerStr at h
  rcases List.mem_map.mp h with ⟨a, _, rfl⟩
  exact ⟨a, rfl⟩

/-- Helper: a lowered extension never equals a configured entry holding an
ASCII uppercase letter. -/
theorem extLowerOf_ne_upper_entry (entry key : List Char)
    (hup : hasUpperAscii entry) : extLowerOf key ≠ entry := by
  intro heq
  obtain ⟨c, hc, hU⟩ := hup
  rw [← heq] at hc
  obtain ⟨a, rfl⟩ := mem_lowerStr c (extOf key) hc
  exact toLowerChar_not_upper a hU

/-- C10.  Extension filtering lowercases the extension of every key before
comparison but compares verbatim against the configured entries, so an
entry holding an ASCII uppercase letter can never equal any lowered key
extension; consequently adding such an entry to the blocked list changes
nothing, adding it to a non-empty allowed list changes nothing, and with
both lists empty the filter returns the input list itself, order and
duplicates preserved. -/
theorem c10_extension_filter_case_behaviour :
    (∀ (entry key : List Char), hasUpperAscii entry → extLowerOf key ≠ entry) ∧
    (∀ (files : List (List Char)), filterFilesByExtension [] [] files = files) ∧
    (∀ (entry : List Char) (allowed blocked : List (List Char))
        (files : List (List Char)), hasUpperAscii entry →
      filterFilesByExtension allowed (entry :: blocked) files
        = filterFilesByExtension allowed blocked files) ∧
    (∀ (entry : List Char) (allowed blocked : List (List Char))
        (files : List (List Char)), hasUpperAscii entry → allowed ≠ [] →
      filterFilesByExtension (entry :: allowed) blocked files
        = filterFilesByExtension allowed blocked files) := by
  have hbeq : ∀ (entry key : List Char), hasUpperAscii entry →
      (extLowerOf key == entry) = false := by
    intro entry key hup
    exact beq_eq_false_iff_ne.mpr (extLowerOf_ne_upper_entry entry key hup)
  refine ⟨fun entry key hup => extLowerOf_ne_upper_entry entry key hup,
    fun files => rfl, ?_, ?_⟩
  · intro entry allowed blocked files hup
    unfold filterFilesByExtension
    rw [if_neg (by simp)]
    by_cases hab : allowed = [] ∧ blocked = []
    · rw [if_pos hab]
      obtain ⟨ha, hb⟩ := hab
      subst ha; subst hb
      rw [List.filter_eq_self]
      intro f _
      simp [extLowerOf_ne_upper_entry entry f hup]
    · rw [if_neg hab]
      apply List.filter_congr
      intro f _
      simp [extLowerOf_ne_upper_entry entry f hup]
  · intro entry allowed blocked files hup hne
    have hie : allowed.isEmpty = false := by
      cases allowed with
      | nil => exact absurd rfl hne
      | cons a as => rfl
    unfold filterFilesByExtension
    rw [if_neg (by simp), if_neg (by simp [hne])]
    apply List.filter_congr
    intro f _
    simp [extLowerOf_ne_upper_entry entry f hup, hie]

/-- C10 witness: the uppercase entry dot-T-X-T matches no key, blocking
with it is a no-op, allowing with it beside a lowercase entry is a no-op,
and the empty configuration is the identity on a concrete list. -/
theorem c10_extension_filter_witness :
    extLowerOf (String.toList "a.TXT") ≠ String.toList ".TXT" ∧
    filterFilesByExtension [] [] [String.toList "a.txt", String.toList "a.txt"]
      = [String.toList "a.txt", String.toList "a.txt"] ∧
    filterFilesByExtension [] [String.toList ".TXT"] [String.toList "a.txt"]
      = filterFilesByExtension [] [] [String.toList "a.txt"] ∧
    filterFilesByExtension [String.toList ".TXT", String.toList ".txt"] []
        [String.toList "a.txt"]
      = filterFilesByExtension [String.toList ".txt"] [] [String.toList "a.txt"] :=
  ⟨c10_extension_filter_case_behaviour.1 (String.toList ".TXT")
      (String.toList "a.TXT") (by decide),
    c10_extension_filter_case_behaviour.2.1 _,
    c10_extension_filter_case_behaviour.2.2.1 (String.toList ".TXT") [] []
      [String.toList "a.txt"] (by decide),
    c10_extension_filter_case_behaviour.2.2.2 (String.toList ".TXT")
      [String.toList ".txt"] [] [String.toList "a.txt"] (by decide) (by decide)⟩

/-- Helper: the head of what dropWhile leaves never satisfies the
predicate. -/
theorem dropWhile_head_not {α : Type} (p : α → Bool) :
    ∀ (l : List α) (a : α), (l.dropWhile p).head? = some a → p a = false := by
  intro l
  induction l with
  | nil => intro a h; simp [List.dropWhile] at h
  | cons x xs ih =>
      intro a h
      by_cases hx : p x
      · rw [List.dropWhile_cons_of_pos hx] at h
        exact ih a h
      · rw [List.dropWhile_cons_of_neg hx] at h
        simp at h
        subst h
        simpa using hx

/-- Helper: dropWhile is the identity when the head does not satisfy the
predicate. -/
theorem dropWhile_eq_self_of {α : Type} (p : α → Bool) (l : List α)
    (h : ∀ a, l.head? = some a → p a = false) : l.dropWhile p = l := by
  cases l with
  | nil => rfl
  | cons x xs => rw [List.dropWhile_cons_of_neg (by simp [h x rfl])]

/-- Helper: a non-empty trim result starts with a character outside the
cutset. -/
theorem trim_head_not (s : List Char) (a : Char)
    (h : (trimSpaceDot s).head? = some a) : isCutChar a = false := by
  unfold trimSpaceDot at h
  rw [List.head?_reverse] at h
  set u := ((s.dropWhile isCutChar).reverse.dropWhile isCutChar) with hu
  have hsub : u <:+ (s.dropWhile isCutChar).reverse := List.dropWhile_suffix _
  obtain ⟨pre, hw⟩ := hsub
  have hune : u ≠ [] := by
    intro h0
    rw [h0] at h
    simp at h
  have h3 : ((s.dropWhile isCutChar).reverse).getLast? = some a := by
    rw [← hw, List.getLast?_append_of_ne_nil pre hune]
    exact h
  rw [List.getLast?_reverse] at h3
  exact dropWhile_head_not isCutChar s a h3

/-- Helper: a non-empty trim result ends with a character outside the
cutset. -/
theorem trim_getLast_not (s : List Char) (a : Char)
    (h : (trimSpaceDot s).getLast? = some a) : isCutChar a = false := by
  unfold trimSpaceDot at h
  rw [List.getLast?_reverse] at h
  exact dropWhile_head_not isCutChar _ a h

/-- Helper: trim is the identity on a string whose two ends are outside the
cutset. -/
theorem trim_eq_self (s : List Char)
    (h1 : ∀ a, s.head? = some a → isCutChar a = false)
    (h2 : ∀ a, s.getLast? = some a → isCutChar a = false) :
    trimSpaceDot s = s := by
  unfold trimSpaceDot
  rw [dropWhile_eq_self_of isCutChar s h1]
  rw [dropWhile_eq_self_of isCutChar s.reverse
    (fun a ha => h2 a (by rwa [List.head?_reverse] at ha))]
  exact List.reverse_reverse s

/-- Helper: trimming keeps only characters of the original string. -/
theorem mem_of_mem_trim (s : List Char) (a : Char)
    (h : a ∈ trimSpaceDot s) : a ∈ s := by
  unfold trimSpaceDot at h
  rw [List.mem_reverse] at h
  have h2 : a ∈ (s.dropWhile isCutChar).reverse :=
    List.Sublist.mem h (List.dropWhile_sublist isCutChar)
  rw [List.mem_reverse] at h2
  exact List.Sublist.mem h2 (List.dropWhile_sublist isCutChar)

/-- Helper: the sanitize map only emits printable non-forbidden ASCII. -/
theorem sanitizeChar_safe (c : Char) : safeChar (sanitizeChar c) := by
  unfold sanitizeChar
  by_cases h : c.toNat < 32 ∨ 126 < c.toNat ∨ c ∈ forbiddenChars
  · rw [if_pos h]
    decide
  · rw [if_neg h]
    push_neg at h
    exact ⟨by omega, by omega, h.2.2⟩

/-- Helper: the sanitize map keeps a safe character unchanged. -/
theorem sanitizeChar_id_of_safe (c : Char) (h : safeChar c) :
    sanitizeChar c = c := by
  unfold sanitizeChar
  rw [if_neg]
  obtain ⟨h1, h2, h3⟩ := h
  push_neg
  exact ⟨by omega, by omega, h3⟩

/-- Helper: every character of a sanitized name is safe. -/
theorem mem_sanitizeFilename_safe (s : List Char) (a : Char)
    (h : a ∈ sanitizeFilename s) : safeChar a := by
  unfold sanitizeFilename at h
  have hm := mem_of_mem_trim _ a h
  rcases List.mem_map.mp hm with ⟨b, _, rfl⟩
  exact sanitizeChar_safe b

/-- Helper: the sanitize map is the identity on a string of safe
characters. -/
theorem map_sanitizeChar_id (s : List Char) (h : ∀ a ∈ s, safeChar a) :
    s.map sanitizeChar = s := by
  induction s with
  | nil => rfl
  | cons x xs ih =>
      simp only [List.map_cons]
      rw [sanitizeChar_id_of_safe x (h x (List.mem_cons_self x xs)),
        ih fun a ha => h a (List.mem_cons_of_mem x ha)]

/-- Helper: lowering distributes over append. -/
theorem lowerStr_append (s t : List Char) :
    lowerStr (s ++ t) = lowerStr s ++ lowerStr t :=
  List.map_append toLowerChar s t

/-- Helper: stripping the zip suffix from a name that ends in it removes
exactly the four appended characters. -/
theorem stripZip_appendZip (s : List Char) :
    stripZipSuffix (s ++ zipSuffix) = s := by
  unfold stripZipSuffix
  rw [if_pos]
  · rw [List.length_append]
    show (s ++ zipSuffix).take (s.length + 4 - 4) = s
    rw [Nat.add_sub_cancel]
    exact List.take_left s zipSuffix
  · rw [lowerStr_append]
    rw [show lowerStr zipSuffix = zipSuffix from rfl]
    rw [List.isSuffixOf_iff_suffix]
    exact List.suffix_append (lowerStr s) zipSuffix

/-- Helper: taking a positive count preserves the head. -/
theorem head_take_pos (l : List Char) (n : Nat) (h : 0 < n) :
    (l.take n).head? = l.head? := by
  cases l with
  | nil => simp
  | cons b t =>
      cases n with
      | zero => omega
      | succ m => simp [List.take]

/-- Helper: only the dot lowers to a dot. -/
theorem toLowerChar_eq_dot (c : Char) (h : toLowerChar c = '.') : c = '.' := by
  unfold toLowerChar at h
  by_cases hc : 65 ≤ c.toNat ∧ c.toNat ≤ 90
  · rw [if_pos hc] at h
    have hv : (c.toNat + 32).isValidChar := Or.inl (by omega)
    have hton := congrArg Char.toNat h
    rw [charOfNat_toNat _ hv] at hton
    rw [show ('.' : Char).toNat = 46 from rfl] at hton
    omega
  · rwa [if_neg hc] at h

/-- Helper: the head of a non-empty list appends on the left. -/
theorem head_append_left (l t : List Char) (h : l ≠ []) :
    (l ++ t).head? = l.head? := by
  cases l with
  | nil => exact absurd rfl h
  | cons b bs => rfl

/-- Helper: stripping the zip suffix keeps only original characters. -/
theorem mem_of_mem_stripZip (s : List Char) (a : Char)
    (h : a ∈ stripZipSuffix s) : a ∈ s := by
  unfold stripZipSuffix at h
  split at h
  · exact List.take_subset _ _ h
  · exact h

/-- Helper: stripping the zip suffix from a non-empty sanitized name leaves
a non-empty string with the same head.  The delicate case is a sanitized
name whose lowering is exactly dot-z-i-p: it would strip to nothing, but it
would also have to start with a dot, which trimming forbids. -/
theorem stripZip_sanitized_props (s : List Char)
    (hne : sanitizeFilename s ≠ []) :
    stripZipSuffix (sanitizeFilename s) ≠ [] ∧
    (stripZipSuffix (sanitizeFilename s)).head?
      = (sanitizeFilename s).head? := by
  obtain ⟨h0, f0t, hf0⟩ : ∃ c t, sanitizeFilename s = c :: t := by
    cases hx : sanitizeFilename s with
    | nil => exact absurd hx hne
    | cons c t => exact ⟨c, t, rfl⟩
  have hhead : (sanitizeFilename s).head? = some h0 := by rw [hf0]; rfl
  have hcut : isCutChar h0 = false := by
    apply trim_head_not (s.map sanitizeChar) h0
    rw [show trimSpaceDot (s.map sanitizeChar) = sanitizeFilename s from rfl]
    exact hhead
  unfold stripZipSuffix
  by_cases hsuf :
      List.isSuffixOf zipSuffix (lowerStr (sanitizeFilename s)) = true
  · rw [if_pos hsuf]
    have hsfx : zipSuffix <:+ lowerStr (sanitizeFilename s) :=
      List.isSuffixOf_iff_suffix.mp hsuf
    have hlow : (lowerStr (sanitizeFilename s)).length
        = (sanitizeFilename s).length := List.length_map _ _
    have hlen4 : 4 ≤ (sanitizeFilename s).length := by
      have := hsfx.length_le
      simp [zipSuffix] at this
      omega
    have hlen5 : 5 ≤ (sanitizeFilename s).length := by
      by_contra hlt
      have hl4 : (sanitizeFilename s).length = 4 := by omega
      have heq : zipSuffix = lowerStr (sanitizeFilename s) :=
        hsfx.eq_of_length (by rw [hlow, hl4]; rfl)
      have hdz : (lowerStr (sanitizeFilename s)).head? = some '.' := by
        rw [← heq]; rfl
      rw [show lowerStr (sanitizeFilename s)
          = (sanitizeFilename s).map toLowerChar from rfl,
        List.head?_map, hhead] at hdz
      simp at hdz
      have : h0 = '.' := toLowerChar_eq_dot h0 hdz
      rw [this] at hcut
      cases hcut
    have hpos : 0 < (sanitizeFilename s).length - 4 := by omega
    have hh := head_take_pos (sanitizeFilename s)
      ((sanitizeFilename s).length - 4) hpos
    constructor
    · intro h0'
      rw [h0'] at hh
      rw [hhead] at hh
      cases hh
    · exact hh
  · rw [if_neg hsuf]
    exact ⟨hne, rfl⟩

/-- Helper: every character of the zip suffix is safe. -/
theorem zipSuffix_safe : ∀ a ∈ zipSuffix, safeChar a := by decide

/-- Helper: sanitizing is the identity on a name made of safe characters
that does not start inside the cutset, once the zip suffix is appended. -/
theorem sanitize_id_on_good (f1 : List Char)
    (hsafe : ∀ a ∈ f1, safeChar a)
    (hhead : ∀ a, f1.head? = some a → isCutChar a = false)
    (hne : f1 ≠ []) :
    sanitizeFilename (f1 ++ zipSuffix) = f1 ++ zipSuffix := by
  unfold sanitizeFilename
  rw [map_sanitizeChar_id (f1 ++ zipSuffix) (by
    intro a ha
    rcases List.mem_append.mp ha with h | h
    · exact hsafe a h
    · exact zipSuffix_safe a h)]
  apply trim_eq_self
  · intro a ha
    rw [head_append_left f1 zipSuffix hne] at ha
    exact hhead a ha
  · intro a ha
    rw [List.getLast?_append_of_ne_nil f1 (by decide)] at ha
    have : a = 'p' := by
      rw [show (zipSuffix.getLast? = some 'p') from rfl] at ha
      cases ha
      rfl
    rw [this]
    rfl

/-- Helper: with the append-date option off, preparing a filename is
stripping the zip suffix from the chosen base name and re-appending it. -/
theorem prepare_noymd (san : Bool) (today x : List Char) :
    prepareFilename san false today x
      = stripZipSuffix (if x = [] then String.toList "download"
          else if san = true then sanitizeFilename x else x) ++ zipSuffix := rfl

/-- C8 counterexample.  With the append-date option on, preparing is not
idempotent: preparing the prepared name appends the date a second time, as
the concrete name a with date 20251011 shows. -/
theorem c8_prepare_not_idempotent_counterexample :
    prepareFilename false true (String.toList "20251011")
        (String.toList "a") = String.toList "a-20251011.zip" ∧
    prepareFilename false true (String.toList "20251011")
        (prepareFilename false true (String.toList "20251011")
          (String.toList "a"))
      = String.toList "a-20251011-20251011.zip" ∧
    ((prepareFilename false true (String.toList "20251011")
        (prepareFilename false true (String.toList "20251011")
          (String.toList "a")))
      == prepareFilename false true (String.toList "20251011")
          (String.toList "a")) = false := by
  refine ⟨by decide, by decide, by decide⟩

/-- C8 amended.  Filename preparation is idempotent whenever the
append-date option is off, provided that when sanitizing is on the
sanitized base of a non-empty name is non-empty (otherwise the first pass
yields the bare suffix dot-z-i-p, whose second pass trims the leading dot
and produces zip-dot-zip); with append-date on idempotence fails, the date
being appended twice. -/
theorem c8_prepare_idempotent_amended (san : Bool) (today x : List Char)
    (hs : san = true → x ≠ [] → sanitizeFilename x ≠ []) :
    prepareFilename san false today (prepareFilename san false today x)
      = prepareFilename san false today x := by
  by_cases hx : x = []
  · subst hx
    rw [prepare_noymd san today [], if_pos rfl]
    rw [prepare_noymd san today
      (stripZipSuffix (String.toList "download") ++ zipSuffix)]
    cases san
    · decide
    · decide
  · cases san
    · rw [prepare_noymd false today x, if_neg hx,
        if_neg (show ¬(false = true) by decide)]
      rw [prepare_noymd false today (stripZipSuffix x ++ zipSuffix),
        if_neg (by simp [zipSuffix]), if_neg (show ¬(false = true) by decide),
        stripZip_appendZip]
    · have hsan : sanitizeFilename x ≠ [] := hs rfl hx
      obtain ⟨hf1ne, hf1head⟩ := stripZip_sanitized_props x hsan
      rw [prepare_noymd true today x, if_neg hx, if_pos rfl]
      rw [prepare_noymd true today
        (stripZipSuffix (sanitizeFilename x) ++ zipSuffix),
        if_neg (by simp [zipSuffix]), if_pos rfl]
      rw [sanitize_id_on_good (stripZipSuffix (sanitizeFilename x))
        (fun a ha => mem_sanitizeFilename_safe x a (mem_of_mem_stripZip _ a ha))
        (fun a ha => by
          rw [hf1head] at ha
          exact trim_head_not (x.map sanitizeChar) a ha)
        hf1ne]
      rw [stripZip_appendZip]

/-- C8 witness: with sanitizing on and append-date off, preparing the name
doc twice gives the same result as preparing it once. -/
theorem c8_prepare_idempotent_witness :
    ((true : Bool) = true → String.toList "doc" ≠ [] →
      sanitizeFilename (String.toList "doc") ≠ []) ∧
    prepareFilename true false (String.toList "20251011")
        (prepareFilename true false (String.toList "20251011")
          (String.toList "doc"))
      = prepareFilename true false (String.toList "20251011")
          (String.toList "doc") :=
  ⟨by decide,
    c8_prepare_idempotent_amended true (String.toList "20251011")
      (String.toList "doc") (by decide)⟩

end Zipperfly
